import Mathlib

/-!
Verification of the SARVAI personal-memory service core against its design
specification.  Each section shallowly embeds one component of the Python
source (`backend/app/services/...`) as executable Lean definitions and proves
or refutes the corresponding specification claims.

Modelling conventions, used throughout:
* Python floats are modelled as `ℚ` where the code only does field
  arithmetic and comparisons, and as `ℝ` where it calls `exp`/`log`.
* SQL / dict / datetime values: ids are `ℕ`, timestamps are `ℤ` (whole days,
  matching the code's exclusive use of `.days`), JSON scalars rendered into
  strings are carried as `String` fields.
* Python's stable `list.sort(key=f, reverse=True)` / `sorted` are modelled by
  `List.insertionSort` with the corresponding total preorder, which inserts a
  later element after earlier equal-key ones, i.e. is stable.
* External collaborators (the sentence-transformer model, the LLM, tiktoken)
  are opaque function parameters.
-/

/-! ## Generic helpers (Python string / list primitives)

These re-implement the Python string primitives the source uses, over
`List Char`, so that all definitions reduce inside the kernel (the library
`String` functions are byte-position based and do not). -/

/-- Python `s.lower()` (ASCII content in this code base). -/
def lowerStr (s : String) : String := ⟨s.data.map Char.toLower⟩

/-- Worker for `pyWords`: accumulates the current word (reversed). -/
def wordsAux (cur : List Char) : List Char → List String
  | [] => if cur.isEmpty then [] else [⟨cur.reverse⟩]
  | c :: rest =>
      if c.isWhitespace then
        if cur.isEmpty then wordsAux [] rest
        else ⟨cur.reverse⟩ :: wordsAux [] rest
      else wordsAux (c :: cur) rest

/-- Python `s.split()`: split on whitespace runs, dropping empty pieces. -/
def pyWords (s : String) : List String := wordsAux [] s.data

/-- Python `needle in haystack` on lists of characters: `needle` occurs as a
contiguous infix.  The empty needle is contained in everything, matching
Python. -/
def containsSub (needle : List Char) : List Char → Bool
  | [] => needle.isEmpty
  | c :: rest => needle.isPrefixOf (c :: rest) || containsSub needle rest

/-- Python `needle in haystack` for strings. -/
def strContains (haystack needle : String) : Bool :=
  containsSub needle.data haystack.data

/-- Python `" ".join(s.lower().split())`: lowercase and collapse whitespace
(the normalisation used by `SemanticDeduplicator._simple_hash`). -/
def pyNormalize (s : String) : String :=
  ⟨(((pyWords (lowerStr s)).map String.data).intersperse [' ']).flatten⟩

/-! ## Memory classification (`MemoryManager.classify_memory`) -/

/-- One entry of the `temporal_markers` list in `classify_memory`.  The
source list mixes six string literals with the integer
`datetime.now().year`. -/
inductive Marker where
  | strMark (s : String)
  | yearMark (y : ℤ)
deriving DecidableEq, Repr

/-- Lazily evaluate Python's
`any(marker in content_lower for marker in temporal_markers)`:
string markers are substring tests, but reaching the integer year marker
raises `TypeError` (`'in <string>' requires string as left operand, not
int`), modelled as `Except.error ()`.  `any` short-circuits on the first
hit, so the error surfaces only when every earlier marker misses. -/
def anyMarkerIn (contentLower : String) : List Marker → Except Unit Bool
  | [] => Except.ok false
  | Marker.strMark s :: rest =>
      if strContains contentLower s then Except.ok true
      else anyMarkerIn contentLower rest
  | Marker.yearMark _ :: _ => Except.error ()

/-- The `temporal_markers` list of `classify_memory` (source order). -/
def temporalMarkers (year : ℤ) : List Marker :=
  [Marker.strMark "yesterday", Marker.strMark "today",
   Marker.strMark "last week", Marker.strMark "on monday",
   Marker.strMark "this morning", Marker.strMark "last night",
   Marker.yearMark year]

/-- The `personal_markers` list of `classify_memory`. -/
def personalMarkers : List String := ["i ", "my ", "me ", "we ", "our "]

/-- The rule part of `classify_memory` (everything after the metadata
check). -/
def classifyMemoryRules (contentType content : String) (year : ℤ) :
    Except Unit String :=
  let contentLower := lowerStr content
  match anyMarkerIn contentLower (temporalMarkers year) with
  | Except.error e => Except.error e
  | Except.ok hasTemporal =>
      let hasPersonal := personalMarkers.any (strContains contentLower)
      let isShort := (pyWords content).length < 100
      if (hasTemporal && hasPersonal) || (isShort && hasPersonal) then
        Except.ok "episodic"
      else if contentType = "pdf" || 500 < (pyWords content).length then
        Except.ok "semantic"
      else
        Except.ok "episodic"

/-- `MemoryManager.classify_memory`.  `metaType` is
`memory.meta_data.get("memory_type")` (`none` when absent); an empty string
is falsy in Python and falls through to the rules.  `year` is
`datetime.now().year`.  Returns `Except.error ()` when the Python code
raises `TypeError` while computing `has_temporal`. -/
def classifyMemory (metaType : Option String) (contentType : String)
    (content : String) (year : ℤ) : Except Unit String :=
  match metaType with
  | some t =>
      if t ≠ "" then Except.ok t
      else classifyMemoryRules contentType content year
  | none => classifyMemoryRules contentType content year

/-! ## Importance scoring (`MemoryImportance.calculate_score`) -/

/-- The `type_weights` dictionary lookup with default `1.0`. -/
noncomputable def typeWeights (contentType : String) : ℝ :=
  if contentType = "text" then 1.0
  else if contentType = "pdf" then 1.2
  else if contentType = "image" then 0.9
  else if contentType = "audio" then 1.1
  else if contentType = "web" then 0.7
  else 1.0

/-- `MemoryImportance.calculate_score`.  `ageDays` is
`(now - memory.created_at).days`, `daysSinceAccess` is
`(now - last_accessed).days` when `last_accessed` is non-null (a `datetime`
is always truthy). -/
noncomputable def calculateScore (contentType : String) (ageDays : ℤ)
    (accessCount : ℕ) (daysSinceAccess : Option ℤ)
    (embeddingVariance : ℝ) : ℝ :=
  let recencyScore := Real.exp (-(ageDays : ℝ) / 30)
  let frequencyScore := Real.log (1 + (accessCount : ℝ)) / 10
  let accessRecency : ℝ :=
    match daysSinceAccess with
    | some d => Real.exp (-(d : ℝ) / 7)
    | none => 0
  let contentWeight := typeWeights contentType
  let richnessScore := min embeddingVariance 1
  0.35 * recencyScore + 0.25 * frequencyScore + 0.20 * accessRecency
    + 0.15 * contentWeight + 0.05 * richnessScore

/-- The content-type weight table as the specification claim words it
("1.0 for text, 1.2 for pdf, 0.9 for image, 1.1 for audio, 0.7 for web,
and 1.0 for any other content_type"), for comparison with the code's
`typeWeights`. -/
noncomputable def typeWeightSpec (contentType : String) : ℝ :=
  if contentType = "text" then 1.0
  else if contentType = "pdf" then 1.2
  else if contentType = "image" then 0.9
  else if contentType = "audio" then 1.1
  else if contentType = "web" then 0.7
  else 1.0

/-! ## Score fusion (`HybridSearchEngine`)

Python dicts preserve insertion order; they are modelled as association
lists where assigning to an existing key updates it in place and a new key
is appended.  Document ids (`str(embedding_id)` UUID strings in the code)
are opaque tokens, modelled as `ℕ`. -/

/-- Python `d.get(key, dflt)` on an insertion-ordered association list. -/
def dictGetD : List (ℕ × ℚ) → ℕ → ℚ → ℚ
  | [], _, dflt => dflt
  | p :: rest, key, dflt => if p.1 = key then p.2 else dictGetD rest key dflt

/-- Python `d[key] = v`: update in place, else append. -/
def dictSet (d : List (ℕ × ℚ)) (key : ℕ) (v : ℚ) : List (ℕ × ℚ) :=
  match d with
  | [] => [(key, v)]
  | p :: rest => if p.1 = key then (key, v) :: rest else p :: dictSet rest key v

/-- Python `dict(list_of_pairs)` (later pairs overwrite earlier ones). -/
def dictOfPairs (l : List (ℕ × ℚ)) : List (ℕ × ℚ) :=
  l.foldl (fun d p => dictSet d p.1 p.2) []

/-- One `for rank, (doc_id, _) in enumerate(results)` loop of
`reciprocal_rank_fusion`, updating
`rrf_scores[doc_id] = rrf_scores.get(doc_id, 0) + 1 / (k + rank + 1)`.
`rank` is the running 0-indexed position. -/
def rrfLoop (k : ℚ) (rank : ℕ) (scores : List (ℕ × ℚ)) :
    List (ℕ × ℚ) → List (ℕ × ℚ)
  | [] => scores
  | (docId, _) :: rest =>
      rrfLoop k (rank + 1)
        (dictSet scores docId (dictGetD scores docId 0 + 1 / (k + rank + 1)))
        rest

/-- The `rrf_scores` dictionary after both loops of
`reciprocal_rank_fusion`. -/
def rrfScores (vectorResults bm25Results : List (ℕ × ℚ)) (k : ℚ) :
    List (ℕ × ℚ) :=
  rrfLoop k 0 (rrfLoop k 0 [] vectorResults) bm25Results

/-- `HybridSearchEngine.reciprocal_rank_fusion` (default `k = 60`):
`sorted(rrf_scores.items(), key=lambda x: x[1], reverse=True)` — a stable
descending sort, modelled by `insertionSort` with `a.2 ≥ b.2`. -/
def reciprocalRankFusion (vectorResults bm25Results : List (ℕ × ℚ))
    (k : ℚ) : List (ℕ × ℚ) :=
  List.insertionSort (fun a b => a.2 ≥ b.2) (rrfScores vectorResults bm25Results k)

/-- Per-list RRF contribution of `id` as the (amended) claim words it: the
sum of `1 / (61 + rank)` over the 0-indexed positions of `id` in the
list. -/
def rrfContribSpec (l : List (ℕ × ℚ)) (id : ℕ) : ℚ :=
  ∑ i ∈ Finset.range l.length,
    if (l.getD i (0, 0)).1 = id then 1 / (61 + (i : ℚ)) else 0

/-- Python `max(scores)` (errors on an empty list; callers guard). -/
def listMax : List ℚ → ℚ
  | [] => 0
  | s :: rest => rest.foldl max s

/-- Python `min(scores)` (errors on an empty list; callers guard). -/
def listMin : List ℚ → ℚ
  | [] => 0
  | s :: rest => rest.foldl min s

/-- `HybridSearchEngine.normalize_scores`: a constant (or empty) list maps
to all-ones (`[1.0] * 0 = []` for the empty case), else min-max. -/
def normalizeScores (scores : List ℚ) : List ℚ :=
  if scores.isEmpty || listMax scores = listMin scores then
    List.replicate scores.length 1
  else
    scores.map (fun s => (s - listMin scores) / (listMax scores - listMin scores))

/-- Deduplicate keeping the first occurrence of each element. -/
def dedupFirstAux (seen : List ℕ) : List ℕ → List ℕ
  | [] => []
  | x :: rest =>
      if x ∈ seen then dedupFirstAux seen rest
      else x :: dedupFirstAux (x :: seen) rest

/-- `HybridSearchEngine.weighted_fusion`.  `all_doc_ids` is a Python `set`
whose iteration order is unspecified (hash-randomised); it is modelled in
first-seen order: vector-result ids first, then new bm25 ids. -/
def weightedFusion (vectorResults bm25Results : List (ℕ × ℚ))
    (alpha : ℚ) : List (ℕ × ℚ) :=
  let vectorDict := dictOfPairs vectorResults
  let bm25Dict := dictOfPairs bm25Results
  let allDocIds :=
    dedupFirstAux [] ((vectorResults.map Prod.fst) ++ (bm25Results.map Prod.fst))
  let vectorScoresL := allDocIds.map (fun id => dictGetD vectorDict id 0)
  let bm25ScoresL := allDocIds.map (fun id => dictGetD bm25Dict id 0)
  let normVector := normalizeScores vectorScoresL
  let normBm25 := normalizeScores bm25ScoresL
  let combinedScores := (allDocIds.zip (normVector.zip normBm25)).map
    (fun p => (p.1, alpha * p.2.1 + (1 - alpha) * p.2.2))
  List.insertionSort (fun a b => a.2 ≥ b.2) combinedScores

/-! ## Hybrid search (`HybridSearchEngine.search`)

`_vector_search` is a SQL query executed by the database (pgvector kNN);
its result list is taken as a parameter.  The BM25 ranker
(`fit` on the dense candidates, then `search(query_text, top_k*2)`) is an
opaque oracle from the fitted documents to a ranked `(id, score)` list. -/

/-- One row of `_vector_search`'s result (`created_at` in whole days,
`meta_data` as its rendered form). -/
structure VecRow where
  embedding_id : ℕ
  chunk_text : String
  chunk_index : ℕ
  memory_id : ℕ
  content_type : String
  file_path : String
  meta_data : String
  created_at : ℤ
  similarity : ℚ
deriving DecidableEq, Repr

/-- A final hybrid-search row: a copy of the dense row plus
`hybrid_score`. -/
structure HybridRow where
  base : VecRow
  hybrid_score : ℚ
deriving DecidableEq, Repr

/-- `HybridSearchEngine.search` after the dense stage.
`embedding_id_map` is a dict comprehension (later duplicate ids overwrite
earlier ones), hence the `reverse.find?` lookup. -/
def hybridSearch (bm25Search : List (ℕ × String) → List (ℕ × ℚ))
    (vectorResults : List VecRow) (topK : ℕ) (fusionMethod : String) :
    List HybridRow :=
  if vectorResults.isEmpty then []
  else
    let documents := vectorResults.map (fun r => (r.embedding_id, r.chunk_text))
    let bm25Results := bm25Search documents
    let vectorTuples := vectorResults.map (fun r => (r.embedding_id, r.similarity))
    let fusedResults :=
      if fusionMethod = "rrf" then reciprocalRankFusion vectorTuples bm25Results 60
      else weightedFusion vectorTuples bm25Results (7/10)
    (fusedResults.take topK).filterMap (fun p =>
      (vectorResults.reverse.find? (fun r => r.embedding_id = p.1)).map
        (fun r => HybridRow.mk r p.2))

/-! ## Hierarchical retrieval (`MemoryManager.retrieve_with_hierarchy`)

The two SQL queries are modelled over in-memory tables.  The pgvector
`cosine_distance` function is an opaque parameter `cosDist` (instantiated
with the exact rational value of the cosine distance in concrete runs).
SQL `ORDER BY`'s unspecified tie order is modelled by a stable sort. -/

/-- A row of the `memories` table (fields used by hierarchical
retrieval). -/
structure MemoryRow where
  id : ℕ
  user_id : ℕ
  content_type : String
  memory_type : String
  created_at : ℤ
  meta_data : String
deriving DecidableEq, Repr

/-- A row of the `embeddings` table. -/
structure EmbeddingRow where
  memory_id : ℕ
  chunk_text : String
  embedding : List ℚ
deriving DecidableEq, Repr

/-- A row of the `memory_summaries` table (fields used by retrieval). -/
structure SummaryRow where
  id : ℕ
  user_id : ℕ
  summary_text : String
  summary_embedding : List ℚ
  created_at : ℤ
  memory_count : ℕ
  date_range_start : ℤ
  date_range_end : ℤ
deriving DecidableEq, Repr

/-- The metadata attached to a retrieval result: the memory's `meta_data`
for episodic rows, the `{memory_count, date_range}` dict for summary
rows. -/
inductive RowMeta where
  | ofMemory (meta : String)
  | ofSummary (memoryCount : ℕ) (dateRangeStart dateRangeEnd : ℤ)
deriving DecidableEq, Repr

/-- One result dict of `retrieve_with_hierarchy`. -/
structure RetrievalRow where
  memory_id : ℕ
  content_type : String
  chunk_text : String
  similarity : ℚ
  memory_type : String
  created_at : ℤ
  metadata : RowMeta
deriving DecidableEq, Repr

/-- `MemoryManager.retrieve_with_hierarchy`.  Note the source's
`order_by(desc("distance"))` in both queries and the absence of any
`memory_type` filter in the episodic query. -/
def retrieveWithHierarchy (cosDist : List ℚ → List ℚ → ℚ)
    (memories : List MemoryRow) (embeddings : List EmbeddingRow)
    (summaries : List SummaryRow) (now : ℤ) (userId : ℕ)
    (queryEmbedding : List ℚ) (topK : ℕ) (includeSummaries : Bool) :
    List RetrievalRow :=
  let recentCutoff := now - 7
  let joined := memories.flatMap (fun m =>
    (embeddings.filter (fun e => e.memory_id = m.id)).map
      (fun e => (m, e, cosDist e.embedding queryEmbedding)))
  let episodicCand := joined.filter
    (fun t => t.1.user_id = userId ∧ recentCutoff ≤ t.1.created_at)
  let episodicSorted := List.insertionSort (fun a b => a.2.2 ≥ b.2.2) episodicCand
  let episodicRows := (episodicSorted.take (topK / 2)).map (fun t =>
    RetrievalRow.mk t.1.id t.1.content_type t.2.1.chunk_text (1 - t.2.2)
      "episodic" t.1.created_at (RowMeta.ofMemory t.1.meta_data))
  let summaryRows :=
    if includeSummaries then
      let sCand := (summaries.filter (fun s => s.user_id = userId)).map
        (fun s => (s, cosDist s.summary_embedding queryEmbedding))
      ((List.insertionSort (fun a b => a.2 ≥ b.2) sCand).take (topK / 2)).map
        (fun p => RetrievalRow.mk p.1.id "summary" p.1.summary_text (1 - p.2)
          "semantic" p.1.created_at
          (RowMeta.ofSummary p.1.memory_count p.1.date_range_start p.1.date_range_end))
    else []
  let results := episodicRows ++ summaryRows
  (List.insertionSort (fun a b => a.similarity ≥ b.similarity) results).take topK

/-! ## Temporal boost (`TemporalRetriever.apply_temporal_boost`)

The scores mix `np.exp`, so this part is real-valued.  Input rows carry the
`created_at` and `similarity` keys the code reads (both present on every
row produced by `retrieve_with_hierarchy`). -/

/-- An input result row for the temporal boost. -/
structure TBoostRow where
  created_at : ℤ
  similarity : ℝ

/-- The same row after the boost loop added its three keys. -/
structure TBoostOut where
  created_at : ℤ
  similarity : ℝ
  temporal_score : ℝ
  original_similarity : ℝ
  boosted_score : ℝ

/-- The per-row body of `apply_temporal_boost`'s loop. -/
noncomputable def temporalBoostRow (now : ℤ) (recencyWeight : ℝ)
    (temporalQuery : Bool) (r : TBoostRow) : TBoostOut :=
  let ageDays := now - r.created_at
  let recencyScore := Real.exp (-(ageDays : ℝ) / 30)
  let recencyScore :=
    if temporalQuery ∧ ageDays < 7 then recencyScore * 1.5 else recencyScore
  let similarity := r.similarity
  let boostedScore := (1 - recencyWeight) * similarity + recencyWeight * recencyScore
  TBoostOut.mk r.created_at r.similarity recencyScore similarity boostedScore

/-- `TemporalRetriever.apply_temporal_boost`: annotate every row, then
re-sort by `boosted_score` descending (`list.sort` is stable). -/
noncomputable def applyTemporalBoost (now : ℤ) (results : List TBoostRow)
    (recencyWeight : ℝ) (temporalQuery : Bool) : List TBoostOut :=
  List.insertionSort (fun a b => a.boosted_score ≥ b.boosted_score)
    (results.map (temporalBoostRow now recencyWeight temporalQuery))

/-! ## Context building and citation extraction (`ContextBuilder`)

`count_tokens` wraps tiktoken (with a `len(text)//4` fallback) and is an
opaque parameter.  JSON metadata scalars are carried in their rendered
string form (`page_count` as interpolated, `duration_seconds` after `:.1f`
formatting). -/

/-- Python `s.strip()`. -/
def pyStrip (s : String) : String :=
  ⟨((s.data.dropWhile Char.isWhitespace).reverse.dropWhile Char.isWhitespace).reverse⟩

/-- Python `sep.join(parts)`. -/
def joinSep (sep : String) (parts : List String) : String :=
  ⟨((parts.map String.data).intersperse sep.data).flatten⟩

/-- A retrieval-result dict as `ContextBuilder` consumes it.
`similarity`/`hybrid_score` are `none` when the key is absent. -/
structure CtxResult where
  memory_id : ℕ
  content_type : String
  chunk_text : String
  similarity : Option ℚ
  hybrid_score : Option ℚ
  metaHasText : Bool
  metaPageCount : Option String
  metaDuration : String
deriving DecidableEq, Repr

/-- `ContextBuilder._format_result`: the `[Source i]` block for one
result. -/
def formatResult (r : CtxResult) (index : ℕ) (includeMetadata : Bool) : String :=
  let lines := ["[Source " ++ toString index ++ "]"]
  let lines := lines ++ ["Type: " ++ r.content_type]
  let lines :=
    if includeMetadata then
      if r.content_type = "image" ∧ r.metaHasText then
        lines ++ ["Content: Image with extracted text"]
      else if r.content_type = "pdf" then
        lines ++ ["Pages: " ++ r.metaPageCount.getD "unknown"]
      else if r.content_type = "audio" then
        lines ++ ["Duration: " ++ r.metaDuration ++ "s"]
      else lines
    else lines
  let lines := lines ++ ["\nContent:\n" ++ pyStrip r.chunk_text]
  joinSep "\n" lines

/-- The `for i, result in enumerate(results)` loop of `build_context`:
skip empty or already-seen `chunk_text`, format with 1-based index, stop
(`break`) as soon as a block would exceed the budget. -/
def buildContextLoop (countTokens : String → ℕ) (maxTokens : ℕ)
    (includeMetadata : Bool) (currentTokens : ℕ) (seen : List String)
    (acc : List String) : List (ℕ × CtxResult) → List String
  | [] => acc
  | (i, r) :: rest =>
      if r.chunk_text = "" ∨ r.chunk_text ∈ seen then
        buildContextLoop countTokens maxTokens includeMetadata currentTokens
          seen acc rest
      else
        let block := formatResult r (i + 1) includeMetadata
        let blockTokens := countTokens block
        if maxTokens < currentTokens + blockTokens then acc
        else
          buildContextLoop countTokens maxTokens includeMetadata
            (currentTokens + blockTokens) (r.chunk_text :: seen)
            (acc ++ [block]) rest

/-- Position-annotated copy of a list (Python `enumerate`). -/
def enumFrom (i : ℕ) : List α → List (ℕ × α)
  | [] => []
  | x :: rest => (i, x) :: enumFrom (i + 1) rest

/-- `ContextBuilder.build_context`.  The default budget is
`self.max_tokens // 2 = 4096 // 2`; Python's `or` makes an explicit `0`
fall back to the default too. -/
def buildContext (countTokens : String → ℕ) (results : List CtxResult)
    (maxContextTokens : Option ℕ) (includeMetadata : Bool) : String :=
  let maxTokens :=
    match maxContextTokens with
    | some n => if n = 0 then 4096 / 2 else n
    | none => 4096 / 2
  let parts := buildContextLoop countTokens maxTokens includeMetadata 0 [] []
    (enumFrom 0 results)
  if parts.isEmpty then "" else joinSep "\n\n---\n\n" parts

/-- Numeric value of a (non-empty) digit run. -/
def digitsToNat (ds : List Char) : ℕ :=
  ds.foldl (fun acc c => 10 * acc + (c.toNat - Char.toNat '0')) 0

/-- Try to match the regex `\[Source (\d+)\]` at the head of `cs`,
returning the captured number. -/
def citeAt (cs : List Char) : Option ℕ :=
  if ("[Source ".data).isPrefixOf cs then
    let afterTag := cs.drop 8
    let ds := afterTag.takeWhile Char.isDigit
    if ds.isEmpty then none
    else
      match afterTag.drop ds.length with
      | ']' :: _ => some (digitsToNat ds)
      | _ => none
  else none

/-- All matches of `re.finditer(r'\[Source (\d+)\]', response)` in order.
A match starts with `[` and contains no further `[`, so matches cannot
overlap and scanning every position is exactly `finditer`. -/
def scanCitations : List Char → List ℕ
  | [] => []
  | c :: rest =>
      match citeAt (c :: rest) with
      | some n => n :: scanCitations rest
      | none => scanCitations rest

/-- Deduplicate (keep first occurrence); the polymorphic version used for
the `cited_indices` set and elsewhere. -/
def pyDedup [DecidableEq α] (seen : List α) : List α → List α
  | [] => []
  | x :: rest =>
      if x ∈ seen then pyDedup seen rest
      else x :: pyDedup (x :: seen) rest

/-- One extracted source entry (`memory_id` is the opaque
`str(result.get("memory_id"))`, modelled as the id itself). -/
structure SourceEntry where
  memory_id : ℕ
  content_type : String
  snippet : String
  similarity : ℚ
deriving DecidableEq, Repr

/-- Python `result.get("similarity") or result.get("hybrid_score", 0)`:
a missing or zero (falsy) similarity falls back to the hybrid score. -/
def entrySim (r : CtxResult) : ℚ :=
  match r.similarity with
  | some s => if s = 0 then r.hybrid_score.getD 0 else s
  | none => r.hybrid_score.getD 0

/-- The entry built for one cited result (`snippet` is
`chunk_text[:200]`). -/
def mkSourceEntry (r : CtxResult) : SourceEntry :=
  SourceEntry.mk r.memory_id r.content_type ⟨r.chunk_text.data.take 200⟩ (entrySim r)

/-- `ContextBuilder.extract_sources`: collect the distinct cited indices
(1-based in the answer, shifted to 0-based as `int(...) - 1`, hence `ℤ`),
sort ascending, and keep those in `[0, len(results))`. -/
def extractSources (response : String) (results : List CtxResult) :
    List SourceEntry :=
  let citedIndices : List ℤ :=
    pyDedup [] ((scanCitations response.data).map (fun n => (n : ℤ) - 1))
  let sortedIdx := List.insertionSort (fun a b : ℤ => a ≤ b) citedIndices
  sortedIdx.filterMap (fun (idx : ℤ) =>
    if 0 ≤ idx then
      match results.get? idx.toNat with
      | some r => some (mkSourceEntry r)
      | none => none
    else none)

/-! ## Embedding service (`EmbeddingService`, `embedding_cache.py`)

The sentence-transformer model is an opaque `String → List ℚ` oracle.
Cache keys are `f"{model}:{sha256(text)}"` with a fixed model tag; sha256
is modelled as injective, so the key is the text itself.  MD5 over the
normalised text in `_simple_hash` is likewise modelled as the normalised
text. -/

/-- Python dict lookup on an insertion-ordered association list. -/
def pyGet? [DecidableEq κ] : List (κ × β) → κ → Option β
  | [], _ => none
  | p :: rest, key => if p.1 = key then some p.2 else pyGet? rest key

/-- Python `d[key] = v`: update in place, else append. -/
def pySet [DecidableEq κ] : List (κ × β) → κ → β → List (κ × β)
  | [], key, v => [(key, v)]
  | p :: rest, key, v =>
      if p.1 = key then (key, v) :: rest else p :: pySet rest key v

/-- Python `del d[key]` (keys are unique). -/
def pyDel [DecidableEq κ] : List (κ × β) → κ → List (κ × β)
  | [], _ => []
  | p :: rest, key => if p.1 = key then rest else p :: pyDel rest key

/-- Python `list.remove(x)`: drop the first occurrence. -/
def pyRemove [DecidableEq α] : List α → α → List α
  | [], _ => []
  | y :: rest, x => if y = x then rest else y :: pyRemove rest x

/-- The state of `EmbeddingCache`: the `_cache` dict and the
`_access_order` list. -/
structure CacheState where
  entries : List (String × List ℚ)
  accessOrder : List String
  maxSize : ℕ
deriving DecidableEq, Repr

/-- An empty cache of the default capacity 10000. -/
def emptyCache : CacheState := CacheState.mk [] [] 10000

/-- `EmbeddingCache.get`: on a hit the key moves to the
most-recently-used end of `_access_order`. -/
def cacheGet (c : CacheState) (text : String) : Option (List ℚ) × CacheState :=
  let key := text
  match pyGet? c.entries key with
  | some v =>
      let order :=
        (if key ∈ c.accessOrder then pyRemove c.accessOrder key else c.accessOrder)
          ++ [key]
      (some v, { c with accessOrder := order })
  | none => (none, c)

/-- `EmbeddingCache.set`: evict the LRU head when inserting a new key at
capacity (`pop(0)` on an empty order list would raise; capacity is
positive so this is unreachable and modelled as a no-op). -/
def cacheSet (c : CacheState) (text : String) (v : List ℚ) : CacheState :=
  let key := text
  let c :=
    if c.maxSize ≤ c.entries.length ∧ pyGet? c.entries key = none then
      match c.accessOrder with
      | [] => c
      | oldest :: restOrder =>
          { c with entries := pyDel c.entries oldest, accessOrder := restOrder }
    else c
  { c with
    entries := pySet c.entries key v
    accessOrder :=
      if key ∈ c.accessOrder then c.accessOrder else c.accessOrder ++ [key] }

/-- `SemanticDeduplicator._simple_hash` (md5 modelled as injective). -/
def simpleHash (text : String) : String := pyNormalize text

/-- The loop of `SemanticDeduplicator.find_duplicates`.  `index_mapping`
is a dict whose keys are exactly `0..len(texts)-1` in order, so it is
carried positionally. -/
def findDupAux (seenHashes : List (String × ℕ)) (uniqueTexts : List String)
    (mapping : List ℕ) : List String → List String × List ℕ
  | [] => (uniqueTexts, mapping)
  | t :: rest =>
      let h := simpleHash t
      match pyGet? seenHashes h with
      | some idx => findDupAux seenHashes uniqueTexts (mapping ++ [idx]) rest
      | none =>
          let uniqueIdx := uniqueTexts.length
          findDupAux (pySet seenHashes h uniqueIdx) (uniqueTexts ++ [t])
            (mapping ++ [uniqueIdx]) rest

/-- `SemanticDeduplicator.find_duplicates`. -/
def findDuplicates (texts : List String) : List String × List ℕ :=
  findDupAux [] [] [] texts

/-- `SemanticDeduplicator.restore_order` (an out-of-range index would
raise in Python; the mapping always stays in range). -/
def restoreOrder (uniqueEmbeddings : List (List ℚ)) (indexMapping : List ℕ) :
    List (List ℚ) :=
  indexMapping.map (fun i => uniqueEmbeddings.getD i [])

/-- `BatchProcessor.optimize_batch_size` (lengths in characters,
`//` floor division, `max_batch_size = 32`). -/
def optimizeBatchSize (texts : List String) : ℕ :=
  if texts.isEmpty then 32
  else
    let avg := (texts.map (fun t => t.data.length)).sum / texts.length
    if 2000 < avg then min 8 texts.length
    else if 1000 < avg then min 16 texts.length
    else min 32 texts.length

/-- `range(0, len, bs)` slicing, with the list length as structural fuel
(enough because the callers always pass a positive `bs`). -/
def createBatchesGo (bs : ℕ) : ℕ → List String → List (List String)
  | 0, _ => []
  | _ + 1, [] => []
  | fuel + 1, l@(_ :: _) => l.take bs :: createBatchesGo bs fuel (l.drop bs)

/-- `BatchProcessor.create_batches` with the computed batch size. -/
def createBatches (texts : List String) : List (List String) :=
  createBatchesGo (optimizeBatchSize texts) texts.length texts

/-- Right-pad an embedding with zeros to `targetDim` (`np.concatenate`
with a zero block; rows of one numpy batch share their width, so padding
row-wise is the same). -/
def padTo (targetDim : ℕ) (v : List ℚ) : List ℚ :=
  if v.length < targetDim then v ++ List.replicate (targetDim - v.length) 0 else v

/-- `EmbeddingService.embed_text` (`use_cache and self.cache_enabled`
with the default `cache_enabled = True`): returns the vector and the
updated cache. -/
def embedText (model : String → List ℚ) (c : CacheState) (text : String)
    (targetDim : ℕ) (useCache : Bool) : List ℚ × CacheState :=
  if useCache then
    match cacheGet c text with
    | (some cached, c1) => (cached, c1)
    | (none, c1) =>
        let emb := padTo targetDim (model text)
        (emb, cacheSet c1 text emb)
  else (padTo targetDim (model text), c)

/-- Step 1 of `embed_batch`: scan the cache for every text in order,
collecting per-position hits, the uncached texts and their indices, and
threading the cache state (each `get` mutates `_access_order`). -/
def cacheScan (c : CacheState) (i : ℕ) :
    List String → List (Option (List ℚ)) × List String × List ℕ × CacheState
  | [] => ([], [], [], c)
  | t :: rest =>
      match cacheGet c t with
      | (some v, c1) =>
          match cacheScan c1 (i + 1) rest with
          | (res, ut, ui, cf) => (some v :: res, ut, ui, cf)
      | (none, c1) =>
          match cacheScan c1 (i + 1) rest with
          | (res, ut, ui, cf) => (none :: res, t :: ut, i :: ui, cf)

/-- Step 6 of `embed_batch`: `results[idx] = embedding` for the zipped
uncached indices; the final `.map (·.getD [])` reflects that every slot
has been filled (a `None` cannot survive). -/
def mergeResults (res : List (Option (List ℚ))) (idxs : List ℕ)
    (embs : List (List ℚ)) : List (List ℚ) :=
  ((idxs.zip embs).foldl (fun r p => r.set p.1 (some p.2)) res).map
    (fun o => o.getD [])

/-- `EmbeddingService.embed_batch`.  Returns the embeddings, the final
cache state, and the number of underlying `model.encode` calls (one per
batch).  Deduplication runs only when more than one text is uncached. -/
def embedBatch (model : String → List ℚ) (c : CacheState)
    (texts : List String) (targetDim : ℕ) (useCache deduplicate : Bool) :
    List (List ℚ) × CacheState × ℕ :=
  if texts.isEmpty then ([], c, 0)
  else
    match (if useCache then cacheScan c 0 texts
           else (texts.map (fun _ => none), texts, List.range texts.length, c)) with
    | (results0, uncachedTexts, uncachedIndices, c1) =>
      if uncachedTexts.isEmpty then (results0.map (fun o => o.getD []), c1, 0)
      else
        let dedupApplied := deduplicate && decide (1 < uncachedTexts.length)
        let td :=
          if dedupApplied then findDuplicates uncachedTexts
          else (uncachedTexts, [])
        let batches := createBatches td.1
        let allEmbeddings :=
          batches.flatMap (fun b => b.map (fun t => padTo targetDim (model t)))
        let allEmbeddings :=
          if dedupApplied then restoreOrder allEmbeddings td.2 else allEmbeddings
        let c2 :=
          if useCache then
            (uncachedTexts.zip allEmbeddings).foldl
              (fun cc p => cacheSet cc p.1 p.2) c1
          else c1
        (mergeResults results0 uncachedIndices allEmbeddings, c2, batches.length)

/-! ## Consolidation (`MemoryManager.consolidate_memories`)

Oracles: `cosSim` is the numpy cosine similarity
`dot / (norm·norm + 1e-8)` (instantiated with its exact rational value on
concrete inputs), `llm` the summary generation (`none` = the exception
branch), `embed` the summary embedding, `imp` the real-valued
`get_memory_importance` of a memory id.  Timestamps are whole days and
`str(m.id)` / `strftime` renderings stay opaque. -/

/-- A row of the `memories` table (fields consolidation reads). -/
structure ConsMemory where
  id : ℕ
  user_id : ℕ
  content : String
  content_type : String
  memory_type : String
  created_at : ℤ
deriving DecidableEq, Repr

/-- A `memory_summaries` row as `_create_memory_summary` builds it. -/
structure ConsSummary where
  user_id : ℕ
  summary_text : String
  summary_embedding : List ℚ
  source_memory_ids : List ℕ
  memory_count : ℕ
  date_range_start : ℤ
  date_range_end : ℤ
  importance_score : ℚ
deriving DecidableEq, Repr

/-- The consolidation-relevant database state. -/
structure ConsDB where
  memories : List ConsMemory
  summaries : List ConsSummary
deriving DecidableEq, Repr

/-- The two SQL column types occurring in the consolidation query's
`NOT IN` comparison: `memories.id` is `uuid`, the subquery column
`memory_summaries.source_memory_ids` is `character varying[]`
(`ARRAY(String)` in `models.py`). -/
inductive SqlTy where
  | tyUuid
  | tyVarcharArr
deriving DecidableEq, Repr

/-- Which `=` operators Postgres has between these column types: only
same-type comparisons; `uuid = character varying[]` does not exist. -/
def sqlHasEqOperator : SqlTy → SqlTy → Bool
  | SqlTy.tyUuid, SqlTy.tyUuid => true
  | SqlTy.tyVarcharArr, SqlTy.tyVarcharArr => true
  | _, _ => false

/-- The memory selection of `consolidate_memories`:
`Memory.id.in_(select(MemorySummary.source_memory_ids))` makes the database
resolve an `=` operator between `uuid` and `character varying[]` at prepare
time.  No such operator exists, so the statement is rejected
("operator does not exist: uuid = character varying[]") before any row is
read: executing the select raises for every database state and user, and
the rest of the `WHERE` clause (same user, `created_at` older than 30 days,
`LIMIT 50`, and notably *no* `memory_type` filter) is never evaluated —
the `ok` branch below is unreachable. -/
def consolidateSelect (db : ConsDB) (userId : ℕ) (now : ℤ) :
    Except Unit (List ConsMemory) :=
  if sqlHasEqOperator SqlTy.tyUuid SqlTy.tyVarcharArr then
    Except.ok ((db.memories.filter (fun m =>
      m.user_id = userId ∧ m.created_at < now - 30)).take 50)
  else
    Except.error ()

/-- `_cluster_memories`' embedding fetch: the first `embeddings` row of
each memory; memories without one are dropped from the clustered list. -/
def clusterFetch (embTable : List (ℕ × List ℚ)) (memories : List ConsMemory) :
    List (ConsMemory × List ℚ) :=
  memories.filterMap (fun m => (pyGet? embTable m.id).map (fun e => (m, e)))

/-- The greedy single-pass clustering of `_cluster_memories`: the first
unused memory seeds a group that absorbs every later unused memory with
cosine similarity ≥ the threshold to the seed. -/
def clusterGo (cosSim : List ℚ → List ℚ → ℚ) (threshold : ℚ) :
    List (ConsMemory × List ℚ) → List (List ConsMemory)
  | [] => []
  | (m, e) :: rest =>
      let close := rest.filter (fun p => threshold ≤ cosSim e p.2)
      let far := rest.filter (fun p => ¬ threshold ≤ cosSim e p.2)
      (m :: close.map Prod.fst) :: clusterGo cosSim threshold far
termination_by l => l.length
decreasing_by
  have h := List.length_filter_le (fun p => ¬ threshold ≤ cosSim e p.2) rest
  simp only [List.length_cons]
  omega

/-- The mean used for the summary's `importance_score` (`np.mean`). -/
def ratMean (l : List ℚ) : ℚ := l.sum / l.length

/-- Python `max(...)` over `ℤ` (callers guarantee non-emptiness). -/
def listMaxZ : List ℤ → ℤ
  | [] => 0
  | s :: rest => rest.foldl max s

/-- Python `min(...)` over `ℤ` (callers guarantee non-emptiness). -/
def listMinZ : List ℤ → ℤ
  | [] => 0
  | s :: rest => rest.foldl min s

/-- `MemoryManager._create_memory_summary`: combine the dated contents
(falsy contents skipped), call the LLM on the first 4000 characters (the
`except` branch produces the fallback text), embed, and build the summary
row with the group's ids, size, date range and mean importance. -/
def createMemorySummary (llm : String → Option String)
    (embed : String → List ℚ) (imp : ℕ → ℚ) (userId : ℕ)
    (memories : List ConsMemory) : Option ConsSummary :=
  if memories.isEmpty then none
  else
    let combinedContent := joinSep "\n\n"
      (memories.filterMap (fun m =>
        if m.content = "" then none
        else some ("[" ++ toString m.created_at ++ "] " ++ m.content)))
    let summaryText :=
      match llm ⟨combinedContent.data.take 4000⟩ with
      | some t => t
      | none => "Summary of " ++ toString memories.length ++
          " related memories about various topics"
    some (ConsSummary.mk userId summaryText (embed summaryText)
      (memories.map (fun m => m.id)) memories.length
      (listMinZ (memories.map (fun m => m.created_at)))
      (listMaxZ (memories.map (fun m => m.created_at)))
      (ratMean (memories.map (fun m => imp m.id))))

/-- `MemoryManager.consolidate_memories`: execute the selection (its very
first `await db.execute` — there is no `try`/`except` around it, so a
database error propagates to the caller), then cluster (each memory in its
own group if no embeddings at all), summarise each group, and return the
new database state with the `consolidated` and `summaries_created`
counters.  Because the selection always raises, the pipeline after the
`match` is dead code in the running program. -/
def consolidateMemories (cosSim : List ℚ → List ℚ → ℚ)
    (llm : String → Option String) (embed : String → List ℚ) (imp : ℕ → ℚ)
    (embTable : List (ℕ × List ℚ)) (db : ConsDB) (userId : ℕ) (now : ℤ) :
    Except Unit (ConsDB × ℕ × ℕ) :=
  match consolidateSelect db userId now with
  | Except.error e => Except.error e
  | Except.ok memoriesToConsolidate =>
    if memoriesToConsolidate.isEmpty then Except.ok (db, 0, 0)
    else
      let memoryEmbeddings := clusterFetch embTable memoriesToConsolidate
      let memoryGroups :=
        if memoryEmbeddings.isEmpty then
          memoriesToConsolidate.map (fun m => [m])
        else clusterGo cosSim (7/10) memoryEmbeddings
      Except.ok (memoryGroups.foldl (fun acc g =>
        match createMemorySummary llm embed imp userId g with
        | some s =>
            ({ acc.1 with summaries := acc.1.summaries ++ [s] },
              acc.2.1 + g.length, acc.2.2 + 1)
        | none => acc) (db, 0, 0))

/-! ## Specification-side helpers and concrete instances

`dotQ` instantiates the opaque cosine oracles exactly on unit-length
vectors; the `ex…` values are the concrete inputs the claim-level runs
evaluate the embedded code on. -/

/-- Rational dot product; `fun a b => 1 - dotQ a b` is the exact cosine
distance for unit vectors. -/
def dotQ (a b : List ℚ) : ℚ := ((a.zip b).map (fun p => p.1 * p.2)).sum

/-- The first text of `texts` whose normalisation equals that of `t` (the
deduplication representative); `t` itself when none exists. -/
def firstNorm (texts : List String) (t : String) : String :=
  (texts.find? (fun u => pyNormalize u = pyNormalize t)).getD t

/-- The first element of `l` whose `_simple_hash` is `h`. -/
def firstHash (l : List String) (h : String) : Option String :=
  l.find? (fun x => simpleHash x = h)

/-- C2 run: a memory of type `semantic`, 1 day old, whose chunk points away
from the query. -/
def exMemFar : MemoryRow := MemoryRow.mk 1 7 "text" "semantic" 99 "m1"

/-- C2 run: a memory of type `episodic`, 1 day old, whose chunk equals the
query direction. -/
def exMemNear : MemoryRow := MemoryRow.mk 2 7 "text" "episodic" 99 "m2"

/-- C2 run: chunk of `exMemFar`, cosine distance 2 from query `[1]`. -/
def exEmbFar : EmbeddingRow := EmbeddingRow.mk 1 "far chunk" [-1]

/-- C2 run: chunk of `exMemNear`, cosine distance 0 from query `[1]`. -/
def exEmbNear : EmbeddingRow := EmbeddingRow.mk 2 "near chunk" [1]

/-- C10 run: a single dense candidate. -/
def exVecRow : VecRow := VecRow.mk 1 "chunk" 0 5 "text" "" "" 0 1

/-- C4 run: a 45-day-old memory of type `semantic`. -/
def exConsMem : ConsMemory := ConsMemory.mk 1 7 "went hiking with Sam" "text" "semantic" 0

/-- C4 run: database holding only `exConsMem` and no summaries. -/
def exConsDB : ConsDB := ConsDB.mk [exConsMem] []

/-- C5 run: first result, `chunk_text` `"dup"`. -/
def exCtxA : CtxResult := CtxResult.mk 11 "text" "dup" (some (1/2)) none false none "0.0"

/-- C5 run: second result with the same `chunk_text` as the first. -/
def exCtxB : CtxResult := CtxResult.mk 22 "text" "dup" (some (3/4)) none false none "0.0"

/-- C6 run: a model that distinguishes case. -/
def exModel : String → List ℚ := fun t => if t = "HELLO" then [2] else [1]

/-- C7 run: a result created at day 0 with similarity 0. -/
def exTRow : TBoostRow := TBoostRow.mk 0 0

/-! ## Theorems

Sort-relation instances first, then helper lemmas, then one theorem (plus
counterexample / witness where applicable) per specification claim. -/

instance : IsTotal (ℕ × ℚ) (fun a b => a.2 ≥ b.2) :=
  ⟨fun a b => le_total b.2 a.2⟩

instance : IsTrans (ℕ × ℚ) (fun a b => a.2 ≥ b.2) :=
  ⟨fun _ _ _ h1 h2 => le_trans h2 h1⟩

theorem dictGetD_dictSet_self (d : List (ℕ × ℚ)) (k : ℕ) (v dflt : ℚ) :
    dictGetD (dictSet d k v) k dflt = v := by
  induction d with
  | nil => simp [dictSet, dictGetD]
  | cons p rest ih =>
      by_cases h : p.1 = k <;> simp [dictSet, dictGetD, h, ih]

theorem dictGetD_dictSet_ne (d : List (ℕ × ℚ)) (k k' : ℕ) (v dflt : ℚ)
    (h : k' ≠ k) :
    dictGetD (dictSet d k v) k' dflt = dictGetD d k' dflt := by
  induction d with
  | nil => simp [dictSet, dictGetD, Ne.symm h]
  | cons p rest ih =>
      by_cases hp : p.1 = k
      · subst hp
        simp [dictSet, dictGetD, Ne.symm h]
      · simp [dictSet, dictGetD, hp, ih]

/-- The running lookup of the RRF accumulation loop: starting value plus
one reciprocal-rank contribution per position of `id` in the list. -/
theorem rrfLoop_getD (k : ℚ) (l : List (ℕ × ℚ)) :
    ∀ (r : ℕ) (scores : List (ℕ × ℚ)) (id : ℕ),
      dictGetD (rrfLoop k r scores l) id 0 =
        dictGetD scores id 0 +
          ∑ i ∈ Finset.range l.length,
            if (l.getD i (0, 0)).1 = id then 1 / (k + ((r : ℚ) + i) + 1)
            else 0 := by
  induction l with
  | nil => intro r scores id; simp [rrfLoop]
  | cons p rest ih =>
      intro r scores id
      obtain ⟨d, s⟩ := p
      rw [rrfLoop, ih (r + 1), List.length_cons, Finset.sum_range_succ']
      simp only [List.getD_cons_succ, List.getD_cons_zero, Nat.cast_zero,
        Nat.cast_add, Nat.cast_one, add_zero]
      have hsum : (∑ i ∈ Finset.range rest.length,
          if (rest.getD i (0, 0)).1 = id then 1 / (k + ((r : ℚ) + 1 + ↑i) + 1)
          else 0)
        = ∑ i ∈ Finset.range rest.length,
          if (rest.getD i (0, 0)).1 = id then 1 / (k + ((r : ℚ) + (↑i + 1)) + 1)
          else 0 := by
        refine Finset.sum_congr rfl (fun i _ => ?_)
        refine if_congr Iff.rfl ?_ rfl
        congr 1
        ring
      by_cases hd : d = id
      · subst hd
        rw [dictGetD_dictSet_self, if_pos rfl, hsum]
        ring
      · rw [dictGetD_dictSet_ne _ _ _ _ _ (fun hh => hd hh.symm), if_neg hd,
          hsum]
        ring

/-- C3, corrected: on the single-element dense list the fused score is
`1/61`, not the `1/(60 + 0) = 1/60` the claim's 0-indexed formula gives. -/
theorem claim_C3_rrf_counterexample :
    reciprocalRankFusion [(1, 1)] [] 60 = [(1, 1/61)] ∧ (1 : ℚ)/61 ≠ 1/60 := by
  constructor
  · norm_num [reciprocalRankFusion, rrfScores, rrfLoop, dictSet, dictGetD,
      List.insertionSort, List.orderedInsert]
  · norm_num

/-- C3, amended: `reciprocal_rank_fusion` assigns each id the sum, over the
lists containing it, of `1/(61 + rank)` with `rank` the id's 0-indexed
position (equivalently `1/(60 + rank)` 1-indexed), and returns the score
dictionary sorted by fused score descending. -/
theorem claim_C3_rrf_fused_scores (vr br : List (ℕ × ℚ)) (id : ℕ) :
    dictGetD (rrfScores vr br 60) id 0
        = rrfContribSpec vr id + rrfContribSpec br id
      ∧ (reciprocalRankFusion vr br 60).Perm (rrfScores vr br 60)
      ∧ List.Sorted (fun a b => a.2 ≥ b.2) (reciprocalRankFusion vr br 60) := by
  refine ⟨?_, List.perm_insertionSort _ _, List.sorted_insertionSort _ _⟩
  unfold rrfScores
  rw [rrfLoop_getD, rrfLoop_getD]
  simp only [dictGetD]
  have hsum : ∀ l : List (ℕ × ℚ),
      (∑ i ∈ Finset.range l.length,
        if (l.getD i (0, 0)).1 = id then 1 / (60 + (((0 : ℕ) : ℚ) + ↑i) + 1)
        else 0) = rrfContribSpec l id := by
    intro l
    unfold rrfContribSpec
    refine Finset.sum_congr rfl (fun i _ => ?_)
    refine if_congr Iff.rfl ?_ rfl
    congr 1
    push_cast
    ring
  rw [hsum, hsum]
  ring

/-- C1, code bug: `classify_memory`'s `temporal_markers` list ends with the
integer `datetime.now().year`, and `marker in content_lower` raises
`TypeError` for an integer marker.  Hence classification of every content
that misses all six string markers — the claim's 700-word marker-free
essay included — fails instead of returning a type, while contents hitting
an earlier string marker still classify (short-circuit). -/
theorem claim_C1_classification_raises :
    (∀ (contentType content : String) (year : ℤ),
      ((temporalMarkers year).all (fun m =>
        match m with
        | Marker.strMark s => !(strContains (lowerStr content) s)
        | Marker.yearMark _ => true)) = true →
      classifyMemory none contentType content year = Except.error ()) ∧
    classifyMemory none "text" "Yesterday I met Alice in the park" 2025
      = Except.ok "episodic" := by
  refine ⟨?_, by rfl⟩
  intro contentType content year h
  simp only [temporalMarkers, List.all_cons, List.all_nil, Bool.and_eq_true,
    Bool.not_eq_true'] at h
  obtain ⟨h1, h2, h3, h4, h5, h6, -⟩ := h
  simp [classifyMemory, classifyMemoryRules, anyMarkerIn, temporalMarkers,
    h1, h2, h3, h4, h5, h6]

/-- C1 witness: "the cat sat on the mat" misses every string marker, so
`classify_memory` raises. -/
theorem claim_C1_classification_raises_witness :
    classifyMemory none "text" "the cat sat on the mat" 2025
      = Except.error () :=
  claim_C1_classification_raises.1 "text" "the cat sat on the mat" 2025
    (by decide)

/-- C8, corrected: with α = 0.5 min-max normalisation over the union gives
both documents the fused score 1/2 — an exact tie — so the fused order is
not the claimed `[b, a]` (ids `a`, `b` are modelled as `1`, `2`; the tie is
resolved by Python's unspecified set-iteration order, modelled
first-seen). -/
theorem claim_C8_weighted_fusion_counterexample :
    (weightedFusion [(1, 9/10), (2, 8/10)] [(2, 10), (1, 2)] (1/2)).map
        Prod.fst ≠ [2, 1] ∧
    weightedFusion [(1, 9/10), (2, 8/10)] [(2, 10), (1, 2)] (1/2)
      = [(1, 1/2), (2, 1/2)] := by
  have h : weightedFusion [(1, 9/10), (2, 8/10)] [(2, 10), (1, 2)] (1/2)
      = [(1, 1/2), (2, 1/2)] := by
    norm_num [weightedFusion, dictOfPairs, dictSet, dictGetD, dedupFirstAux,
      normalizeScores, listMax, listMin, List.insertionSort,
      List.orderedInsert, List.zip, List.zipWith, List.foldl, List.replicate]
  refine ⟨?_, h⟩
  rw [h]
  decide

/-- C8, amended: on the scenario's rankings α = 0.5 yields the fused scores
`a ↦ 1/2, b ↦ 1/2` (a tie, the order between them being Python's
unspecified set order — first-seen gives `[a, b]`), and α = 1.0 yields the
fused order `[a, b]`. -/
theorem claim_C8_weighted_fusion_scenario :
    weightedFusion [(1, 9/10), (2, 8/10)] [(2, 10), (1, 2)] (1/2)
        = [(1, 1/2), (2, 1/2)] ∧
    (weightedFusion [(1, 9/10), (2, 8/10)] [(2, 10), (1, 2)] 1).map Prod.fst
        = [1, 2] := by
  constructor <;>
    norm_num [weightedFusion, dictOfPairs, dictSet, dictGetD, dedupFirstAux,
      normalizeScores, listMax, listMin, List.insertionSort,
      List.orderedInsert, List.zip, List.zipWith, List.foldl, List.replicate]

/-- C2, code bug: `retrieve_with_hierarchy` orders by
`desc("distance")` and has no `memory_type` filter, so on a database whose
episodic memory's chunk matches the query exactly (distance 0) and whose
*semantic* memory's chunk is opposite to it (distance 2), `top_k = 2`
returns the farthest chunk, belonging to the semantic memory, annotated
"episodic" with similarity −1 — not the nearest episodic chunk. -/
theorem claim_C2_retrieval_returns_farthest :
    retrieveWithHierarchy (fun a b => 1 - dotQ a b) [exMemFar, exMemNear]
        [exEmbFar, exEmbNear] [] 100 7 [1] 2 true
      = [RetrievalRow.mk 1 "text" "far chunk" (-1) "episodic" 99
          (RowMeta.ofMemory "m1")] := by
  norm_num [retrieveWithHierarchy, dotQ, exMemFar, exMemNear, exEmbFar,
    exEmbNear, List.insertionSort, List.orderedInsert, List.flatMap,
    List.zip, List.zipWith]

/-- C9, confirmed: `calculate_score` computes exactly the five-term
weighted sum of the claim, with the claim's content-type weight table. -/
theorem claim_C9_importance_formula (ct : String) (a : ℤ) (c : ℕ)
    (d : Option ℤ) (v : ℝ) :
    calculateScore ct a c d v =
      0.35 * Real.exp (-(a : ℝ) / 30)
        + 0.25 * (Real.log (1 + (c : ℝ)) / 10)
        + 0.20 * (match d with
            | some dd => Real.exp (-(dd : ℝ) / 7)
            | none => 0)
        + 0.15 * typeWeightSpec ct + 0.05 * min v 1 := by
  cases d <;> rfl

/-- C10, confirmed: with no dense candidates `search` returns `[]` for
every BM25 oracle (so the ranker is never consulted), and every returned
row is a copy of some dense-stage candidate — there are no lexical-only
results. -/
theorem claim_C10_dense_gate :
    (∀ (bm25 : List (ℕ × String) → List (ℕ × ℚ)) (topK : ℕ) (fm : String),
        hybridSearch bm25 [] topK fm = []) ∧
    ∀ (bm25 : List (ℕ × String) → List (ℕ × ℚ)) (vrs : List VecRow)
        (topK : ℕ) (fm : String) (r : HybridRow),
        r ∈ hybridSearch bm25 vrs topK fm → r.base ∈ vrs := by
  constructor
  · intro bm25 topK fm
    rfl
  · intro bm25 vrs topK fm r hr
    unfold hybridSearch at hr
    by_cases h : vrs.isEmpty
    · rw [if_pos h] at hr
      simp at hr
    · rw [if_neg h] at hr
      simp only [List.mem_filterMap] at hr
      obtain ⟨p, _, hmap⟩ := hr
      rcases hfind : vrs.reverse.find? (fun v => v.embedding_id = p.1)
        with _ | v
      · rw [hfind] at hmap
        simp at hmap
      · rw [hfind] at hmap
        simp only [Option.map_some'] at hmap
        have hv : v ∈ vrs.reverse := List.mem_of_find?_eq_some hfind
        rw [List.mem_reverse] at hv
        injection hmap with h2
        rw [← h2]
        exact hv

/-- C10 witness: a singleton dense candidate list yields a result whose
base row is that candidate. -/
theorem claim_C10_dense_gate_witness :
    (HybridRow.mk exVecRow 1).base ∈ [exVecRow] := by
  refine claim_C10_dense_gate.2 (fun _ => []) [exVecRow] 1 "weighted" _ ?_
  have hne : ¬ (("weighted" : String) = "rrf") := by decide
  have h : hybridSearch (fun _ => []) [exVecRow] 1 "weighted"
      = [HybridRow.mk exVecRow 1] := by
    norm_num [hybridSearch, weightedFusion, dictOfPairs, dictSet, dictGetD,
      dedupFirstAux, normalizeScores, listMax, listMin, exVecRow,
      List.insertionSort, List.orderedInsert, List.zip, List.zipWith,
      List.filterMap_cons, if_neg hne]
  rw [h]
  exact List.mem_singleton.mpr rfl

/-- C7, confirmed: every row annotated by `apply_temporal_boost` has
`boosted_score = (1 − w)·sim + w·recency` (recency = `exp(−age/30)`,
multiplied by 1.5 on a temporal query when age < 7 days), and for
`w ∈ [0, 1]` the boosted score lies in
`[min(sim, exp(−age/30)), max(sim, exp(−age/30))·1.5]`. -/
theorem claim_C7_temporal_boost_bounds (now : ℤ) (results : List TBoostRow)
    (w : ℝ) (tq : Bool) (o : TBoostOut) (hw0 : 0 ≤ w) (hw1 : w ≤ 1)
    (ho : o ∈ applyTemporalBoost now results w tq) :
    o.boosted_score = (1 - w) * o.original_similarity + w * o.temporal_score
      ∧ min o.original_similarity
          (Real.exp (-((now - o.created_at : ℤ) : ℝ) / 30)) ≤ o.boosted_score
      ∧ o.boosted_score ≤
          max o.original_similarity
            (Real.exp (-((now - o.created_at : ℤ) : ℝ) / 30)) * 1.5 := by
  unfold applyTemporalBoost at ho
  rw [List.mem_insertionSort, List.mem_map] at ho
  obtain ⟨r, _, rfl⟩ := ho
  unfold temporalBoostRow
  set sim := r.similarity with hsim
  set base := Real.exp (-((now - r.created_at : ℤ) : ℝ) / 30) with hbase
  have hbpos : 0 < base := Real.exp_pos _
  have hMpos : 0 < max sim base := lt_of_lt_of_le hbpos (le_max_right _ _)
  by_cases hc : (tq = true ∧ now - r.created_at < 7)
  · simp only [if_pos hc]
    refine ⟨trivial, ?_, ?_⟩
    · have h1 : (1 - w) * min sim base ≤ (1 - w) * sim :=
        mul_le_mul_of_nonneg_left (min_le_left _ _) (by linarith)
      have h2 : w * min sim base ≤ w * (base * 1.5) := by
        refine mul_le_mul_of_nonneg_left ?_ hw0
        have := min_le_right sim base
        nlinarith
      calc min sim base = (1 - w) * min sim base + w * min sim base := by ring
        _ ≤ (1 - w) * sim + w * (base * 1.5) := add_le_add h1 h2
    · have h1 : sim ≤ max sim base * 1.5 := by
        have := le_max_left sim base
        nlinarith
      have h2 : base * 1.5 ≤ max sim base * 1.5 := by
        have := le_max_right sim base
        nlinarith
      calc (1 - w) * sim + w * (base * 1.5)
          ≤ (1 - w) * (max sim base * 1.5) + w * (max sim base * 1.5) :=
            add_le_add (mul_le_mul_of_nonneg_left h1 (by linarith))
              (mul_le_mul_of_nonneg_left h2 hw0)
        _ = max sim base * 1.5 := by ring
  · simp only [if_neg hc]
    refine ⟨trivial, ?_, ?_⟩
    · have h1 : (1 - w) * min sim base ≤ (1 - w) * sim :=
        mul_le_mul_of_nonneg_left (min_le_left _ _) (by linarith)
      have h2 : w * min sim base ≤ w * base :=
        mul_le_mul_of_nonneg_left (min_le_right _ _) hw0
      calc min sim base = (1 - w) * min sim base + w * min sim base := by ring
        _ ≤ (1 - w) * sim + w * base := add_le_add h1 h2
    · have h1 : sim ≤ max sim base * 1.5 := by
        have := le_max_left sim base
        nlinarith
      have h2 : base ≤ max sim base * 1.5 := by
        have := le_max_right sim base
        nlinarith
      calc (1 - w) * sim + w * base
          ≤ (1 - w) * (max sim base * 1.5) + w * (max sim base * 1.5) :=
            add_le_add (mul_le_mul_of_nonneg_left h1 (by linarith))
              (mul_le_mul_of_nonneg_left h2 hw0)
        _ = max sim base * 1.5 := by ring

/-- C7 witness: the bounds instantiated on a single row with `w = 1/2`. -/
theorem claim_C7_temporal_boost_bounds_witness :
    (temporalBoostRow 0 (1/2) false exTRow).boosted_score
        = (1 - (1/2 : ℝ)) * (temporalBoostRow 0 (1/2) false exTRow).original_similarity
          + (1/2) * (temporalBoostRow 0 (1/2) false exTRow).temporal_score
      ∧ min (temporalBoostRow 0 (1/2) false exTRow).original_similarity
          (Real.exp (-((0 - (temporalBoostRow 0 (1/2) false exTRow).created_at : ℤ) : ℝ) / 30))
          ≤ (temporalBoostRow 0 (1/2) false exTRow).boosted_score
      ∧ (temporalBoostRow 0 (1/2) false exTRow).boosted_score ≤
          max (temporalBoostRow 0 (1/2) false exTRow).original_similarity
            (Real.exp (-((0 - (temporalBoostRow 0 (1/2) false exTRow).created_at : ℤ) : ℝ) / 30)) * 1.5 := by
  refine claim_C7_temporal_boost_bounds 0 [exTRow] (1/2) false _
    (by norm_num) (by norm_num) ?_
  have h : applyTemporalBoost 0 [exTRow] (1/2) false
      = [temporalBoostRow 0 (1/2) false exTRow] := by
    simp [applyTemporalBoost, List.insertionSort, List.orderedInsert]
  rw [h]
  exact List.mem_singleton.mpr rfl

/-- C4, code bug: the selection's `NOT IN` compares `memories.id : uuid`
with the `source_memory_ids : character varying[]` column (the spec's
§9(a) open question).  Postgres rejects that statement at prepare time, so
`consolidate_memories` raises on *every* run, for every database state —
it never selects any memory, episodic or otherwise, and never creates a
summary, so neither the claimed selection nor the claimed idempotent
re-run behavior exists; in particular it raises on the concrete database
with one 45-day-old memory. -/
theorem claim_C4_consolidation_raises :
    (∀ (cosSim : List ℚ → List ℚ → ℚ) (llm : String → Option String)
        (embed : String → List ℚ) (imp : ℕ → ℚ)
        (embTable : List (ℕ × List ℚ)) (db : ConsDB) (userId : ℕ) (now : ℤ),
      consolidateMemories cosSim llm embed imp embTable db userId now
        = Except.error () ∧
      consolidateSelect db userId now = Except.error ()) ∧
    consolidateMemories (fun _ _ => 0) (fun _ => some "s") (fun _ => [1])
      (fun _ => 1/2) [(1, [1])] exConsDB 7 45 = Except.error () := by
  refine ⟨?_, by rfl⟩
  intro cosSim llm embed imp embTable db userId now
  exact ⟨rfl, rfl⟩

theorem pyDedup_mem [DecidableEq α] :
    ∀ (seen l : List α) (x : α), x ∈ pyDedup seen l → x ∈ l ∧ x ∉ seen := by
  intro seen l
  induction l generalizing seen with
  | nil => intro x hx; simp [pyDedup] at hx
  | cons y rest ih =>
      intro x hx
      by_cases hy : y ∈ seen
      · rw [pyDedup, if_pos hy] at hx
        obtain ⟨h1, h2⟩ := ih seen x hx
        exact ⟨List.mem_cons_of_mem _ h1, h2⟩
      · rw [pyDedup, if_neg hy] at hx
        rcases List.mem_cons.mp hx with rfl | hx'
        · exact ⟨List.mem_cons_self _ _, hy⟩
        · obtain ⟨h1, h2⟩ := ih (y :: seen) x hx'
          exact ⟨List.mem_cons_of_mem _ h1,
            fun hs => h2 (List.mem_cons_of_mem _ hs)⟩

theorem pyDedup_nodup [DecidableEq α] :
    ∀ (seen l : List α), (pyDedup seen l).Nodup := by
  intro seen l
  induction l generalizing seen with
  | nil => simp [pyDedup]
  | cons y rest ih =>
      by_cases hy : y ∈ seen
      · rw [pyDedup, if_pos hy]; exact ih seen
      · rw [pyDedup, if_neg hy]
        refine List.nodup_cons.mpr ⟨fun hmem => ?_, ih (y :: seen)⟩
        exact (pyDedup_mem _ _ _ hmem).2 (List.mem_cons_self _ _)

/-- C5, corrected: with two retrieval results sharing a `chunk_text`,
`build_context` emits only the `[Source 1]` block (the duplicate is
skipped but keeps full-list numbering), while `extract_sources` happily
resolves a `[Source 2]` citation against the full results list — the
reported source never appeared in the prompt. -/
theorem claim_C5_citation_prompt_mismatch :
    extractSources "[Source 2]" [exCtxA, exCtxB]
        = [SourceEntry.mk 22 "text" "dup" (3/4)] ∧
    strContains
        (buildContext (fun s => s.data.length / 4) [exCtxA, exCtxB] none true)
        "[Source 2]" = false := by
  constructor
  · have hscan : scanCitations ("[Source 2]" : String).data = [2] := by decide
    have hd : digitsToNat (List.takeWhile Char.isDigit ['2', ']']) = 2 := by
      decide
    norm_num [extractSources, hscan, hd, pyDedup, mkSourceEntry, entrySim,
      exCtxA, exCtxB, List.insertionSort, List.orderedInsert,
      List.filterMap_cons]
  · decide

theorem pyDedup_complete [DecidableEq α] :
    ∀ (seen l : List α) (x : α), x ∈ l → x ∈ pyDedup seen l ∨ x ∈ seen := by
  intro seen l
  induction l generalizing seen with
  | nil => intro x hx; cases hx
  | cons y rest ih =>
      intro x hx
      by_cases hy : y ∈ seen
      · rw [pyDedup, if_pos hy]
        rcases List.mem_cons.mp hx with rfl | hx'
        · exact Or.inr hy
        · exact ih seen x hx'
      · rw [pyDedup, if_neg hy]
        rcases List.mem_cons.mp hx with rfl | hx'
        · exact Or.inl (List.mem_cons_self _ _)
        · rcases ih (y :: seen) x hx' with h | h
          · exact Or.inl (List.mem_cons_of_mem _ h)
          · rcases List.mem_cons.mp h with rfl | h'
            · exact Or.inl (List.mem_cons_self _ _)
            · exact Or.inr h'

/-- C5, amended: `extract_sources` returns, in strictly ascending index
order, exactly one entry per distinct cited index that lies within the
retrieval results list — every returned index is a distinct in-range
citation (soundness) and every `[Source k+1]` citation with `k` in range
contributes its index (completeness) — each entry built from the k-th
retrieval result with a snippet of at most 200 characters; extracted
sources never exceed the retrieval results handed to `build_context`, but
(per the counterexample) not necessarily those that appeared in the
prompt. -/
theorem claim_C5_extract_sources_sound (response : String)
    (results : List CtxResult) :
    ∃ ks : List ℕ,
      List.Chain' (· < ·) ks ∧
      (∀ k ∈ ks, (k + 1) ∈ scanCitations response.data ∧ k < results.length) ∧
      (∀ k : ℕ, (k + 1) ∈ scanCitations response.data →
        k < results.length → k ∈ ks) ∧
      extractSources response results
        = ks.filterMap (fun k => (results.get? k).map mkSourceEntry) ∧
      ∀ e ∈ extractSources response results, e.snippet.data.length ≤ 200 := by
  classical
  set cited : List ℤ :=
    pyDedup [] ((scanCitations response.data).map (fun n => (n : ℤ) - 1))
    with hcited
  set sorted : List ℤ := List.insertionSort (fun a b : ℤ => a ≤ b) cited
    with hsorted
  set g : ℤ → Option ℕ := fun idx =>
    if 0 ≤ idx ∧ idx.toNat < results.length then some idx.toNat else none
    with hg
  have hmemg : ∀ (idx : ℤ) (k : ℕ), g idx = some k →
      0 ≤ idx ∧ idx.toNat < results.length ∧ k = idx.toNat := by
    intro idx k h
    rw [hg] at h
    dsimp only at h
    by_cases hcond : 0 ≤ idx ∧ idx.toNat < results.length
    · rw [if_pos hcond] at h
      exact ⟨hcond.1, hcond.2, (Option.some.injEq _ _).mp h.symm⟩
    · rw [if_neg hcond] at h
      cases h
  have heq : extractSources response results
      = (sorted.filterMap g).filterMap
          (fun k => (results.get? k).map mkSourceEntry) := by
    rw [List.filterMap_filterMap]
    unfold extractSources
    refine List.filterMap_congr (fun idx _ => ?_)
    by_cases h0 : 0 ≤ idx
    · by_cases h1 : idx.toNat < results.length
      · rcases hget : results.get? idx.toNat with _ | r
        · exact absurd (List.get?_eq_none.mp hget) (not_le.mpr h1)
        · rw [List.get?_eq_getElem?] at hget
          rw [List.getElem?_eq_getElem h1] at hget
          have hr : results[idx.toNat] = r := (Option.some.injEq _ _).mp hget
          simp [hg, h0, h1, List.get?_eq_getElem?,
            List.getElem?_eq_getElem h1, hr]
      · have hnone : results[idx.toNat]? = none := by
          rw [← List.get?_eq_getElem?]
          exact List.get?_eq_none.mpr (not_lt.mp h1)
        simp [hg, h0, h1, List.get?_eq_getElem?, hnone]
    · simp [hg, h0]
  refine ⟨sorted.filterMap g, ?_, ?_, ?_, heq, ?_⟩
  · have hnd : sorted.Nodup := by
      rw [hsorted]
      exact ((List.perm_insertionSort _ cited).nodup_iff).mpr
        (pyDedup_nodup _ _)
    have hsrt : sorted.Sorted (fun a b : ℤ => a ≤ b) := by
      rw [hsorted]
      exact List.sorted_insertionSort _ _
    have hpair : sorted.Pairwise (fun a b : ℤ => a < b) := by
      refine (List.Pairwise.and hsrt hnd).imp ?_
      intro a b hab
      exact lt_of_le_of_ne hab.1 hab.2
    refine List.Pairwise.chain' ?_
    refine List.Pairwise.filterMap g ?_ hpair
    intro a b hab c hc d hd
    obtain ⟨ha0, _, rfl⟩ := hmemg a c hc
    obtain ⟨hb0, _, rfl⟩ := hmemg b d hd
    omega
  · intro k hk
    obtain ⟨idx, hidx, hgk⟩ := List.mem_filterMap.mp hk
    obtain ⟨h0, h1, rfl⟩ := hmemg idx k hgk
    have hidx' : idx ∈ cited := by
      rw [hsorted, List.mem_insertionSort] at hidx
      exact hidx
    have hmem := (pyDedup_mem _ _ _ hidx').1
    obtain ⟨m, hm, hmeq⟩ := List.mem_map.mp hmem
    have hm' : ∃ a ∈ scanCitations response.data, m = ((a : ℤ)) := by
      simpa using hm
    obtain ⟨a, ha, haeq⟩ := hm'
    have hka : idx.toNat + 1 = a := by omega
    constructor
    · rw [hka]
      exact ha
    · exact h1
  · intro k hk hklen
    have hmmem : ((k : ℤ))
        ∈ (scanCitations response.data).map (fun n => (n : ℤ) - 1) := by
      simp only [List.mem_map]
      refine ⟨(k : ℤ) + 1, ?_, by ring⟩
      have hwit : ∃ a ∈ scanCitations response.data,
          ((k : ℤ) + 1) = ((a : ℤ)) := ⟨k + 1, hk, by push_cast; ring⟩
      simpa using hwit
    have hcit : ((k : ℤ)) ∈ cited := by
      rcases pyDedup_complete [] _ ((k : ℤ)) hmmem with hin | hin
      · rw [hcited]
        exact hin
      · cases hin
    have hsortedmem : ((k : ℤ)) ∈ sorted := by
      rw [hsorted, List.mem_insertionSort]
      exact hcit
    have hgk : g ((k : ℤ)) = some k := by
      rw [hg]
      simp [hklen]
    exact List.mem_filterMap.mpr ⟨(k : ℤ), hsortedmem, hgk⟩
  · intro e he
    rw [heq] at he
    obtain ⟨k, _, hke⟩ := List.mem_filterMap.mp he
    rcases hget : results.get? k with _ | r
    · rw [hget] at hke
      cases hke
    · rw [hget] at hke
      have : e = mkSourceEntry r := ((Option.some.injEq _ _).mp hke).symm
      rw [this]
      simp only [mkSourceEntry]
      have := List.length_take 200 r.chunk_text.data
      simp only [this]
      exact min_le_left _ _

/-- C5 witness: the soundness properties instantiated on a concrete answer
and result list. -/
theorem claim_C5_extract_sources_sound_witness :
    ∃ ks : List ℕ,
      List.Chain' (· < ·) ks ∧
      (∀ k ∈ ks, (k + 1) ∈ scanCitations ("[Source 1]" : String).data ∧
        k < [exCtxA].length) ∧
      (∀ k : ℕ, (k + 1) ∈ scanCitations ("[Source 1]" : String).data →
        k < [exCtxA].length → k ∈ ks) ∧
      extractSources "[Source 1]" [exCtxA]
        = ks.filterMap (fun k => ([exCtxA].get? k).map mkSourceEntry) ∧
      ∀ e ∈ extractSources "[Source 1]" [exCtxA],
        e.snippet.data.length ≤ 200 :=
  claim_C5_extract_sources_sound "[Source 1]" [exCtxA]

theorem pyGet?_pySet_self [DecidableEq κ] (d : List (κ × β)) (k : κ) (v : β) :
    pyGet? (pySet d k v) k = some v := by
  induction d with
  | nil => simp [pySet, pyGet?]
  | cons p rest ih =>
      by_cases h : p.1 = k <;> simp [pySet, pyGet?, h, ih]

theorem pyGet?_pySet_ne [DecidableEq κ] (d : List (κ × β)) (k k' : κ)
    (v : β) (h : k' ≠ k) :
    pyGet? (pySet d k v) k' = pyGet? d k' := by
  induction d with
  | nil => simp [pySet, pyGet?, Ne.symm h]
  | cons p rest ih =>
      by_cases hp : p.1 = k
      · subst hp
        simp [pySet, pyGet?, Ne.symm h]
      · simp [pySet, pyGet?, hp, ih]

theorem find?_append_some {p : α → Bool} {l1 : List α} (l2 : List α) {a : α}
    (h : l1.find? p = some a) : (l1 ++ l2).find? p = some a := by
  induction l1 with
  | nil => simp [List.find?] at h
  | cons x rest ih =>
      rcases hx : p x with _ | _
      · rw [List.find?_cons_of_neg _ (by simp [hx])] at h
        rw [List.cons_append, List.find?_cons_of_neg _ (by simp [hx])]
        exact ih h
      · rw [List.find?_cons_of_pos _ hx] at h
        rw [List.cons_append, List.find?_cons_of_pos _ hx]
        exact h

theorem find?_append_none {p : α → Bool} {l1 : List α} (l2 : List α)
    (h : l1.find? p = none) : (l1 ++ l2).find? p = l2.find? p := by
  induction l1 with
  | nil => simp
  | cons x rest ih =>
      rcases hx : p x with _ | _
      · rw [List.find?_cons_of_neg _ (by simp [hx])] at h
        rw [List.cons_append, List.find?_cons_of_neg _ (by simp [hx])]
        exact ih h
      · rw [List.find?_cons_of_pos _ hx] at h
        cases h

/-- `findDupAux` only appends to its unique-texts and mapping
accumulators, and appends exactly one mapping entry per input text. -/
theorem findDupAux_app :
    ∀ (rest : List String) (seen : List (String × ℕ)) (uniq : List String)
      (mp : List ℕ),
      ∃ u2 m2, (findDupAux seen uniq mp rest).1 = uniq ++ u2 ∧
        (findDupAux seen uniq mp rest).2 = mp ++ m2 ∧
        m2.length = rest.length := by
  intro rest
  induction rest with
  | nil => intro seen uniq mp; exact ⟨[], [], by simp [findDupAux],
      by simp [findDupAux], rfl⟩
  | cons t rest' ih =>
      intro seen uniq mp
      rw [findDupAux]
      rcases hh : pyGet? seen (simpleHash t) with _ | j
      · obtain ⟨u2, m2, h1, h2, h3⟩ :=
          ih (pySet seen (simpleHash t) uniq.length) (uniq ++ [t])
            (mp ++ [uniq.length])
        exact ⟨[t] ++ u2, [uniq.length] ++ m2,
          by rw [h1, List.append_assoc],
          by rw [h2, List.append_assoc],
          by simp [h3]⟩
      · obtain ⟨u2, m2, h1, h2, h3⟩ := ih seen uniq (mp ++ [j])
        exact ⟨u2, [j] ++ m2,
          h1,
          by rw [h2, List.append_assoc],
          by simp [h3]⟩

theorem get?_some_lt {l : List α} {n : ℕ} {a : α} (h : l.get? n = some a) :
    n < l.length := by
  by_contra hn
  rw [List.get?_eq_none.mpr (not_lt.mp hn)] at h
  cases h

/-- The central invariant of `find_duplicates`: after processing
`processed`, position `i` of the mapping points at a unique-list entry that
is the first text of `processed ++ rest` sharing the hash of `rest[i]`. -/
theorem findDupAux_spec :
    ∀ (rest processed : List String) (seen : List (String × ℕ))
      (uniq : List String) (mp : List ℕ),
      (∀ h j, pyGet? seen h = some j →
        ∃ u, uniq.get? j = some u ∧ simpleHash u = h ∧
          firstHash processed h = some u) →
      (∀ h, pyGet? seen h = none → firstHash processed h = none) →
      ∀ i, i < rest.length →
        ∃ j u,
          (findDupAux seen uniq mp rest).2.get? (mp.length + i) = some j ∧
          (findDupAux seen uniq mp rest).1.get? j = some u ∧
          firstHash (processed ++ rest) (simpleHash (rest.getD i ""))
            = some u := by
  intro rest
  induction rest with
  | nil => intro processed seen uniq mp _ _ i hi; simp at hi
  | cons t rest' ih =>
      intro processed seen uniq mp hC1 hC2 i hi
      rw [findDupAux]
      rcases hh : pyGet? seen (simpleHash t) with _ | j
      · -- miss: t becomes a new unique entry
        have hft : firstHash (processed ++ [t]) (simpleHash t) = some t := by
          have hnone := hC2 _ hh
          unfold firstHash at hnone ⊢
          rw [find?_append_none _ hnone]
          exact List.find?_cons_of_pos _ (by simp)
        have hC1' : ∀ h j',
            pyGet? (pySet seen (simpleHash t) uniq.length) h = some j' →
            ∃ u, (uniq ++ [t]).get? j' = some u ∧ simpleHash u = h ∧
              firstHash (processed ++ [t]) h = some u := by
          intro h j' hj'
          by_cases hhe : h = simpleHash t
          · subst hhe
            rw [pyGet?_pySet_self] at hj'
            have hj'' : uniq.length = j' := by injection hj'
            subst hj''
            exact ⟨t, List.get?_concat_length _ _, rfl, hft⟩
          · rw [pyGet?_pySet_ne _ _ _ _ hhe] at hj'
            obtain ⟨u, hu1, hu2, hu3⟩ := hC1 h j' hj'
            refine ⟨u, ?_, hu2, ?_⟩
            · rw [List.get?_append (get?_some_lt hu1)]
              exact hu1
            · unfold firstHash at hu3 ⊢
              exact find?_append_some _ hu3
        have hC2' : ∀ h,
            pyGet? (pySet seen (simpleHash t) uniq.length) h = none →
            firstHash (processed ++ [t]) h = none := by
          intro h hn
          by_cases hhe : h = simpleHash t
          · subst hhe
            rw [pyGet?_pySet_self] at hn
            cases hn
          · rw [pyGet?_pySet_ne _ _ _ _ hhe] at hn
            have hpn := hC2 h hn
            unfold firstHash at hpn ⊢
            rw [find?_append_none _ hpn,
              List.find?_cons_of_neg _ (by simp [Ne.symm hhe])]
            rfl
        cases i with
        | zero =>
            obtain ⟨u2, m2, ha1, ha2, _⟩ := findDupAux_app rest'
              (pySet seen (simpleHash t) uniq.length) (uniq ++ [t])
              (mp ++ [uniq.length])
            refine ⟨uniq.length, t, ?_, ?_, ?_⟩
            · rw [ha2, Nat.add_zero, List.append_assoc,
                List.get?_append_right (le_refl mp.length)]
              simp
            · rw [ha1]
              have hlt : uniq.length < (uniq ++ [t]).length := by simp
              rw [List.get?_append hlt, List.get?_concat_length]
            · simp only [List.getD_cons_zero]
              have hre : processed ++ t :: rest' = (processed ++ [t]) ++ rest' := by
                simp
              rw [hre]
              unfold firstHash at hft ⊢
              exact find?_append_some _ hft
        | succ i' =>
            have hi' : i' < rest'.length := by simpa using hi
            obtain ⟨j', u, hj1, hj2, hj3⟩ := ih (processed ++ [t])
              (pySet seen (simpleHash t) uniq.length) (uniq ++ [t])
              (mp ++ [uniq.length]) hC1' hC2' i' hi'
            refine ⟨j', u, ?_, hj2, ?_⟩
            · have hpos : (mp ++ [uniq.length]).length + i'
                  = mp.length + (i' + 1) := by
                simp
                omega
              rw [← hpos]
              exact hj1
            · have hre : (processed ++ [t]) ++ rest' = processed ++ t :: rest' := by
                simp
              rw [hre] at hj3
              simpa using hj3
      · -- hit: t maps to the existing entry j
        obtain ⟨u, hu1, hu2, hu3⟩ := hC1 _ j hh
        have hC1' : ∀ h j', pyGet? seen h = some j' →
            ∃ u', uniq.get? j' = some u' ∧ simpleHash u' = h ∧
              firstHash (processed ++ [t]) h = some u' := by
          intro h j' hj'
          obtain ⟨u', b1, b2, b3⟩ := hC1 h j' hj'
          refine ⟨u', b1, b2, ?_⟩
          unfold firstHash at b3 ⊢
          exact find?_append_some _ b3
        have hC2' : ∀ h, pyGet? seen h = none →
            firstHash (processed ++ [t]) h = none := by
          intro h hn
          have hne : h ≠ simpleHash t := by
            intro hcontra
            rw [hcontra, hh] at hn
            cases hn
          have hpn := hC2 h hn
          unfold firstHash at hpn ⊢
          rw [find?_append_none _ hpn,
            List.find?_cons_of_neg _ (by simp [Ne.symm hne])]
          rfl
        cases i with
        | zero =>
            obtain ⟨u2, m2, ha1, ha2, _⟩ := findDupAux_app rest' seen uniq
              (mp ++ [j])
            refine ⟨j, u, ?_, ?_, ?_⟩
            · rw [ha2, Nat.add_zero, List.append_assoc,
                List.get?_append_right (le_refl mp.length)]
              simp
            · rw [ha1, List.get?_append (get?_some_lt hu1)]
              exact hu1
            · simp only [List.getD_cons_zero]
              have hre : processed ++ t :: rest' = (processed ++ [t]) ++ rest' := by
                simp
              rw [hre]
              unfold firstHash at hu3 ⊢
              exact find?_append_some _ (find?_append_some _ hu3)
        | succ i' =>
            have hi' : i' < rest'.length := by simpa using hi
            obtain ⟨j', u', hj1, hj2, hj3⟩ := ih (processed ++ [t]) seen uniq
              (mp ++ [j]) hC1' hC2' i' hi'
            refine ⟨j', u', ?_, hj2, ?_⟩
            · have hpos : (mp ++ [j]).length + i' = mp.length + (i' + 1) := by
                simp
                omega
              rw [← hpos]
              exact hj1
            · have hre : (processed ++ [t]) ++ rest' = processed ++ t :: rest' := by
                simp
              rw [hre] at hj3
              simpa using hj3

theorem optimizeBatchSize_pos (texts : List String) (h : texts ≠ []) :
    1 ≤ optimizeBatchSize texts := by
  have hlen : 1 ≤ texts.length := List.length_pos.mpr h
  unfold optimizeBatchSize
  rw [if_neg (by simpa [List.isEmpty_iff] using h)]
  dsimp only
  split_ifs <;> omega

theorem createBatchesGo_flatMap (g : String → β) (bs : ℕ) (hbs : 1 ≤ bs) :
    ∀ (fuel : ℕ) (l : List String), l.length ≤ fuel →
      (createBatchesGo bs fuel l).flatMap (fun b => b.map g) = l.map g := by
  intro fuel
  induction fuel with
  | zero =>
      intro l hl
      rw [Nat.le_zero, List.length_eq_zero] at hl
      subst hl
      rfl
  | succ fuel ih =>
      intro l hl
      cases l with
      | nil => rfl
      | cons x xs =>
          rw [createBatchesGo, List.flatMap_cons,
            ih ((x :: xs).drop bs) (by simp at hl ⊢; omega),
            ← List.map_append, List.take_append_drop]

theorem createBatches_flatMap (g : String → β) (texts : List String) :
    (createBatches texts).flatMap (fun b => b.map g) = texts.map g := by
  cases htexts : texts with
  | nil => rfl
  | cons x xs =>
      exact createBatchesGo_flatMap g _
        (optimizeBatchSize_pos _ (by simp)) _ _ (le_refl _)

theorem mergeFold_shift :
    ∀ (idxs : List ℕ) (embs : List (List ℚ)) (x : Option (List ℚ))
      (l : List (Option (List ℚ))),
      (((idxs.map Nat.succ).zip embs).foldl
          (fun r p => r.set p.1 (some p.2)) (x :: l))
        = x :: ((idxs.zip embs).foldl (fun r p => r.set p.1 (some p.2)) l) := by
  intro idxs
  induction idxs with
  | nil => intro embs x l; rfl
  | cons i is ih =>
      intro embs x l
      cases embs with
      | nil => rfl
      | cons e es =>
          simp only [List.map_cons, List.zip_cons_cons, List.foldl_cons]
          exact ih es x (l.set i (some e))

theorem mergeResults_full :
    ∀ embs : List (List ℚ),
      mergeResults (List.replicate embs.length none)
        (List.range embs.length) embs = embs := by
  intro embs
  induction embs with
  | nil => rfl
  | cons e es ih =>
      unfold mergeResults at ih ⊢
      simp only [List.length_cons, List.replicate_succ,
        List.range_succ_eq_map, List.zip_cons_cons, List.foldl_cons,
        List.set_cons_zero, mergeFold_shift, List.map_cons]
      rw [ih]
      rfl

theorem findDupAux_pairwise :
    ∀ (rest : List String) (seen : List (String × ℕ)) (uniq : List String)
      (mp : List ℕ),
      (∀ u ∈ uniq, (pyGet? seen (simpleHash u)).isSome = true) →
      uniq.Pairwise (fun a b => pyNormalize a ≠ pyNormalize b) →
      (findDupAux seen uniq mp rest).1.Pairwise
        (fun a b => pyNormalize a ≠ pyNormalize b) := by
  intro rest
  induction rest with
  | nil => intro seen uniq mp _ hp; simpa [findDupAux] using hp
  | cons t rest' ih =>
      intro seen uniq mp hsome hp
      rw [findDupAux]
      rcases hh : pyGet? seen (simpleHash t) with _ | j
      · refine ih _ _ _ ?_ ?_
        · intro u hu
          rcases List.mem_append.mp hu with hu' | hu'
          · by_cases he : simpleHash u = simpleHash t
            · rw [he, pyGet?_pySet_self]
              rfl
            · rw [pyGet?_pySet_ne _ _ _ _ he]
              exact hsome u hu'
          · rw [List.mem_singleton.mp hu', pyGet?_pySet_self]
            rfl
        · rw [List.pairwise_append]
          refine ⟨hp, List.pairwise_singleton _ _, ?_⟩
          intro a ha b hb
          rw [List.mem_singleton.mp hb]
          intro hcontra
          have := hsome a ha
          have hha : simpleHash a = simpleHash t := hcontra
          rw [hha, hh] at this
          cases this
      · exact ih _ _ _ hsome hp

theorem findDuplicates_pairwise (texts : List String) :
    (findDuplicates texts).1.Pairwise
      (fun a b => pyNormalize a ≠ pyNormalize b) := by
  refine findDupAux_pairwise texts [] [] [] ?_ List.Pairwise.nil
  intro u hu
  cases hu

theorem firstNorm_of_firstHash {l : List String} {t u : String}
    (h : firstHash l (simpleHash t) = some u) : firstNorm l t = u := by
  simp only [firstHash, simpleHash] at h
  unfold firstNorm
  rw [h]
  rfl

theorem findDuplicates_len (texts : List String) :
    (findDuplicates texts).2.length = texts.length := by
  obtain ⟨u2, m2, _, ha2, hm2len⟩ := findDupAux_app texts [] [] []
  unfold findDuplicates
  rw [ha2]
  simpa using hm2len

theorem embedBatch_nocache_dedup (model : String → List ℚ) (c : CacheState)
    (texts : List String) (td : ℕ) (hlen : 1 < texts.length) :
    (embedBatch model c texts td false true).1
      = (findDuplicates texts).2.map
          (fun i => ((findDuplicates texts).1.map
            (fun t => padTo td (model t))).getD i []) := by
  have hne : texts ≠ [] := by
    intro h
    subst h
    simp at hlen
  have hnemp : texts.isEmpty = false := by
    simpa [List.isEmpty_iff] using hne
  unfold embedBatch
  simp only [hnemp, Bool.false_eq_true, if_false, Bool.true_and,
    decide_eq_true_eq, hlen, if_true, restoreOrder, createBatches_flatMap]
  have hX : ((findDuplicates texts).2.map
      (fun i => ((findDuplicates texts).1.map
        (fun t => padTo td (model t))).getD i [])).length = texts.length := by
    rw [List.length_map, findDuplicates_len]
  rw [List.map_const']
  rw [← hX, mergeResults_full]

theorem embedBatch_nocache_single (model : String → List ℚ) (c : CacheState)
    (t : String) (td : ℕ) :
    (embedBatch model c [t] td false true).1 = [padTo td (model t)] := by
  unfold embedBatch
  simp only [List.isEmpty_cons, Bool.false_eq_true, if_false,
    List.length_cons, List.length_nil, Nat.lt_irrefl, decide_eq_true_eq,
    Bool.true_and, createBatches_flatMap]
  have h1 : (1 : ℕ) < 0 + 1 ↔ False := by norm_num
  simp only [Nat.zero_add, h1, decide_False, if_false]
  exact mergeResults_full [padTo td (model t)]

/-- C6, amended: with caching disabled (the empty-cache path is identical)
`embed_batch(texts)[i]` equals `embed` applied to the *first* text of the
batch whose normalisation (lowercase, collapsed whitespace) matches
`texts[i]` — so normalisation-equal inputs receive element-wise equal
vectors; the deduplicated list sent to the model has pairwise-distinct
normalisations (each class is embedded once); and on
`["hello", "HELLO", "hello"]` with an empty cache exactly one underlying
model call happens and all three returned vectors are equal. -/
theorem claim_C6_embed_batch_dedup_semantics :
    (∀ (model : String → List ℚ) (texts : List String) (targetDim : ℕ),
      (embedBatch model emptyCache texts targetDim false true).1
        = texts.map (fun t => padTo targetDim (model (firstNorm texts t)))) ∧
    (∀ texts : List String,
      (findDuplicates texts).1.Pairwise
        (fun a b => pyNormalize a ≠ pyNormalize b)) ∧
    ∀ model : String → List ℚ,
      (embedBatch model emptyCache ["hello", "HELLO", "hello"] 512 true
          true).1
        = List.replicate 3 (padTo 512 (model "hello")) ∧
      (embedBatch model emptyCache ["hello", "HELLO", "hello"] 512 true
          true).2.2 = 1 := by
  refine ⟨?_, findDuplicates_pairwise, fun model => ⟨by rfl, by rfl⟩⟩
  intro model texts td
  by_cases hlen : 1 < texts.length
  · rw [embedBatch_nocache_dedup model emptyCache texts td hlen]
    apply List.ext
    intro i
    rw [List.get?_map, List.get?_map]
    by_cases hi : i < texts.length
    · obtain ⟨j, u, hj1, hj2, hj3⟩ := findDupAux_spec texts [] [] [] []
        (by intro h j hcontra; cases hcontra) (by intro h _; rfl) i hi
      rw [List.nil_append] at hj3
      have hfd2 : (findDuplicates texts).2.get? i = some j := by
        unfold findDuplicates
        simpa using hj1
      have hfd1 : (findDuplicates texts).1.get? j = some u := by
        unfold findDuplicates
        exact hj2
      rcases hget : texts.get? i with _ | x
      · exact absurd (List.get?_eq_none.mp hget) (not_le.mpr hi)
      · have hx : texts.getD i "" = x := by
          unfold List.getD
          rw [hget]
          rfl
        rw [hx] at hj3
        rw [hfd2]
        simp only [Option.map_some']
        congr 1
        have hgd : ((findDuplicates texts).1.map
            (fun t => padTo td (model t))).getD j [] = padTo td (model u) := by
          unfold List.getD
          rw [List.get?_map, hfd1]
          rfl
        rw [hgd, firstNorm_of_firstHash hj3]
    · have hn1 : (findDuplicates texts).2.get? i = none := by
        rw [List.get?_eq_none.mpr]
        rw [findDuplicates_len]
        exact not_lt.mp hi
      have hn2 : texts.get? i = none :=
        List.get?_eq_none.mpr (not_lt.mp hi)
      rw [hn1, hn2]
      rfl
  · cases texts with
    | nil => rfl
    | cons t rest =>
        cases rest with
        | cons t2 rest2 => exact absurd (by simp) hlen
        | nil =>
            rw [embedBatch_nocache_single]
            have hfn : firstNorm [t] t = t := by
              unfold firstNorm
              rw [List.find?_cons_of_pos _ (by simp)]
              rfl
            simp only [List.map_cons, List.map_nil, hfn]

/-- C6, corrected (counterexample): dedup normalises case, so on
`["hello", "HELLO"]` the batch embeds only `"hello"` and scatters its
vector to both positions, while a direct `embed("HELLO")` encodes
`"HELLO"` itself — with a case-sensitive model the claimed
`embed_batch(texts)[i] = embed(texts[i])` fails at `i = 1`. -/
theorem claim_C6_embed_batch_counterexample :
    (embedBatch exModel emptyCache ["hello", "HELLO"] 1 true true).1
        = [[1], [1]] ∧
    (embedText exModel emptyCache "HELLO" 1 true).1 = [2] ∧
    (embedBatch exModel emptyCache ["hello", "HELLO"] 1 true true).1.getD 1 []
      ≠ (embedText exModel emptyCache "HELLO" 1 true).1 := by
  refine ⟨by rfl, by rfl, ?_⟩
  have h1 : (embedBatch exModel emptyCache ["hello", "HELLO"] 1 true
      true).1.getD 1 [] = [1] := by rfl
  have h2 : (embedText exModel emptyCache "HELLO" 1 true).1 = [2] := by rfl
  rw [h1, h2]
  norm_num
